import Mathlib

/-!
Verification of the ksuid-rs base62 codec and identifier layer.

Shallow embedding of `src/base62.rs`, `src/errors.rs` and `src/ksuid.rs`.
Byte strings and character strings are modelled as `List Nat` (each entry a
byte value `< 256`); Rust `u8`/`u32`/`u64` arithmetic is modelled on `Nat`
with an explicit `% 2^w` wherever the Rust code performs a narrowing cast or
a wrapping operation.  Fallible Rust functions returning `Result` are
modelled with `Except`; the `encode` loop, whose Rust body would panic via
index underflow if its output cursor were exhausted, is modelled with
`Option`.
-/

set_option maxRecDepth 40000

namespace KsuidRs

/-- Embedding of the constant `BASE62_CHARS` from src/base62.rs, as the list
of ASCII code points of the alphabet string. -/
def BASE62_CHARS : List Nat :=
  "0123456789ABCDEFGHIJKLMNOPQRSTUVWXYZabcdefghijklmnopqrstuvwxyz".data.map Char.toNat

/-- Embedding of `fn base62_value(digit: &u8) -> u8` from src/base62.rs.
The Rust body is a three-way arithmetic case split on `u8` values with no
error path; the final branch computes `LOWERCASE_OFFSET + (digit - b'a')`,
whose `u8` subtraction and addition wrap modulo 256 (release semantics),
which the explicit `% 256` reproduces.  `UPPERCASE_OFFSET = 10`,
`LOWERCASE_OFFSET = 36`, `b'0' = 48`, `b'9' = 57`, `b'A' = 65`, `b'Z' = 90`,
`b'a' = 97`. -/
def base62_value (digit : Nat) : Nat :=
  if 48 ≤ digit ∧ digit ≤ 57 then digit - 48
  else if 65 ≤ digit ∧ digit ≤ 90 then 10 + (digit - 65)
  else (36 + (digit + 256 - 97) % 256) % 256

/-- Embedding of the inner `for p_index in 0..parts_len` loop shared (up to
instantiation of the bases) by `encode` and `decode` in src/base62.rs: one
long-division pass over the limb list `parts` (most significant limb first,
limbs in base `S`), dividing by `D`, storing quotient limbs truncated to the
storage width `C` (the `as u32` / `as u8` casts), and skipping leading zero
quotient limbs exactly as the `bq_index > 0 || digit != 0` test does.
Returns the compacted quotient limb list and the final remainder. -/
def divLoopAux (C D S : Nat) : List Nat → List Nat → Nat → List Nat × Nat
  | [], acc, r => (acc, r)
  | p :: ps, acc, r =>
    let value := p + r * S
    let digit := (value / D) % C
    divLoopAux C D S ps (if acc = [] ∧ digit = 0 then acc else acc ++ [digit]) (value % D)

/-- Embedding of `BigEndian::read_u32(&src[i..])`: big-endian 32-bit read of
four bytes at offset `i`. -/
def read_u32 (b : List Nat) (i : Nat) : Nat :=
  b.getD i 0 * 2 ^ 24 + b.getD (i + 1) 0 * 2 ^ 16 + b.getD (i + 2) 0 * 2 ^ 8 + b.getD (i + 3) 0

/-- Embedding of the outer `while parts_len > 0` loop of `encode` in
src/base62.rs.  The first argument is the output cursor `n`; each iteration
performs one division pass by `BASE = 62`, decrements the cursor and writes
the alphabet character of the remainder at the new cursor position.  If the
cursor were already `0` while limbs remain, the Rust code would panic on
`n -= 1` underflow, which `none` models; this branch is proved unreachable
for 20-byte inputs. -/
def encodeLoop : Nat → List Nat → List Nat → Option (List Nat)
  | _, [], dst => some dst
  | 0, _ :: _, _ => none
  | m + 1, p :: ps, dst =>
    let pr := divLoopAux (2 ^ 32) 62 (2 ^ 32) (p :: ps) [] 0
    encodeLoop m pr.1 (dst.set m (BASE62_CHARS.getD pr.2 0))

/-- Embedding of `pub fn encode(src: &[u8; 20]) -> String` from
src/base62.rs: the 20 input bytes are read as five big-endian `u32` limbs,
the output buffer starts as 27 copies of `b'0'` (ASCII 48), and the loop
fills it from the end. -/
def encode (src : List Nat) : Option (List Nat) :=
  encodeLoop 27
    [read_u32 src 0, read_u32 src 4, read_u32 src 8, read_u32 src 12, read_u32 src 16]
    (List.replicate 27 48)

/-- Embedding of `pub enum KSUIDError` from src/errors.rs.  String payloads
are carried as byte lists. -/
inductive KSUIDError
  | sliceTooSmall (length : Nat)
  | invalidBase62Character (value : List Nat)
  | invalidBase62Length (value : List Nat)
  deriving DecidableEq, Repr

/-- Embedding of the four byte stores
`result[n-4] = (remainder >> 24) as u8; ...; result[n-1] = remainder as u8`
of `decode` in src/base62.rs. -/
def write4 (result : List Nat) (n r : Nat) : List Nat :=
  ((((result.set (n - 4) ((r >>> 24) % 256)).set (n - 3) ((r >>> 16) % 256)).set
    (n - 2) ((r >>> 8) % 256)).set (n - 1) (r % 256))

/-- Embedding of the outer `while parts_len > 0` loop of `decode` in
src/base62.rs: each iteration performs one division pass by
`dst_base = 2^32`, then errors with `InvalidBase62Length` (carrying the full
input) if fewer than 4 output bytes remain (`n < 4`), else writes the
remainder as four big-endian bytes at `n-4 .. n-1` and continues with
`n - 4`. -/
def decodeLoop (src : List Nat) : List Nat → List Nat → Nat → Except KSUIDError (List Nat)
  | [], result, _ => .ok result
  | p :: ps, result, n =>
    let pr := divLoopAux 256 (2 ^ 32) 62 (p :: ps) [] 0
    match n with
    | n' + 4 => decodeLoop src pr.1 (write4 result (n' + 4) pr.2) n'
    | _ => .error (.invalidBase62Length src)

/-- Embedding of `pub fn decode(src: &str) -> Result<Vec<u8>, KSUIDError>`
from src/base62.rs.  Note the length guard returns
`KSUIDError::InvalidBase62Character` (not the length variant) in the source;
the 27-entry digit buffer is filled from the first 27 bytes of the input via
`base62_value`, and the output buffer starts as 20 zero bytes with cursor
`n = 20`. -/
def decode (src : List Nat) : Except KSUIDError (List Nat) :=
  if src.length < 27 then .error (.invalidBase62Character src)
  else decodeLoop src ((src.take 27).map base62_value) (List.replicate 20 0) 20

/-! Specification-side helpers (not taken from the source): positional
values of digit lists and fixed-width digit expansions. -/

/-- Value of a big-endian digit list in base `B`. -/
def val (B : Nat) : List Nat → Nat
  | [] => 0
  | d :: ds => d * B ^ ds.length + val B ds

/-- Fixed-width big-endian base-`B` digit expansion of `N` with exactly `n`
digits (the value is taken modulo `B ^ n`). -/
def padDigits (B N : Nat) : Nat → List Nat
  | 0 => []
  | n + 1 => padDigits B (N / B) n ++ [N % B]

/-- Byte-wise (code-point) lexicographic strict comparison of byte lists. -/
def lexLt : List Nat → List Nat → Bool
  | [], [] => false
  | [], _ :: _ => true
  | _ :: _, [] => false
  | a :: as, b :: bs => decide (a < b) || (decide (a = b) && lexLt as bs)

/-- Alphabet character for a digit: embedding of the indexing expression
`BASE62_CHARS[remainder as usize]` in src/base62.rs. -/
def b62char (d : Nat) : Nat := BASE62_CHARS.getD d 0

/-! Embedding of src/ksuid.rs.  A `chrono::DateTime<Utc>` is modelled by its
whole-second Unix timestamp (the value `t.timestamp()` returns, an `i64`,
which floors toward negative infinity) together with its subsecond
nanoseconds. -/

/-- Embedding of the constant `EPOCH_START` from src/ksuid.rs. -/
def EPOCH_START : Int := 1400000000

/-- Embedding of the constant `TIMESTAMP_LENGTH` from src/ksuid.rs. -/
def TIMESTAMP_LENGTH : Nat := 4

/-- Embedding of the constant `PAYLOAD_LENGTH` from src/ksuid.rs. -/
def PAYLOAD_LENGTH : Nat := 16

/-- Embedding of the constant `BYTE_LENGTH` from src/ksuid.rs. -/
def BYTE_LENGTH : Nat := TIMESTAMP_LENGTH + PAYLOAD_LENGTH

/-- Embedding of the constant `MAX_STRING_ENCODED` from src/ksuid.rs, as the
list of ASCII code points of the string. -/
def MAX_STRING_ENCODED : List Nat := "aWgEPTl1tmebfsQzFP4bxwgy80V".data.map Char.toNat

/-- Model of `chrono::DateTime<Utc>`: `secs` is the whole-second Unix
timestamp (what `t.timestamp()` returns), `nsecs` the subsecond part. -/
structure DateTimeUtc where
  secs : Int
  nsecs : Nat
  deriving DecidableEq, Repr

/-- Embedding of `struct KSUID(pub [u8; BYTE_LENGTH])` from src/ksuid.rs. -/
structure KSUID where
  bytes : List Nat
  deriving DecidableEq, Repr

/-- Embedding of `fn to_ksuid_time(t: DateTime<Utc>) -> u32` from
src/ksuid.rs: `(t.timestamp() - EPOCH_START) as u32`, the `i64 → u32` cast
being truncation to the low 32 bits (Euclidean remainder by `2^32`). -/
def to_ksuid_time (t : DateTimeUtc) : Nat := ((t.secs - EPOCH_START) % 2 ^ 32).toNat

/-- Embedding of `fn from_ksuid_time(t: u32) -> DateTime<Utc>` from
src/ksuid.rs: `NaiveDateTime::from_timestamp(i64::from(t) + EPOCH_START, 0)`. -/
def from_ksuid_time (t : Nat) : DateTimeUtc := ⟨(t : Int) + EPOCH_START, 0⟩

/-- Embedding of `KSUID::from_parts` from src/ksuid.rs: rejects payloads
shorter than 16 bytes with `SliceTooSmall`, else writes the ksuid time
big-endian into the first four bytes and copies the first 16 payload
bytes. -/
def from_parts (ts : DateTimeUtc) (payload : List Nat) : Except KSUIDError KSUID :=
  if payload.length < PAYLOAD_LENGTH then .error (.sliceTooSmall payload.length)
  else .ok ⟨[(to_ksuid_time ts >>> 24) % 256, (to_ksuid_time ts >>> 16) % 256,
             (to_ksuid_time ts >>> 8) % 256, to_ksuid_time ts % 256]
            ++ payload.take PAYLOAD_LENGTH⟩

/-- Embedding of `KSUID::from_bytes` from src/ksuid.rs: rejects slices
shorter than 20 bytes with `SliceTooSmall`, else copies the first 20 bytes
verbatim. -/
def from_bytes (bs : List Nat) : Except KSUIDError KSUID :=
  if bs.length < BYTE_LENGTH then .error (.sliceTooSmall bs.length)
  else .ok ⟨bs.take BYTE_LENGTH⟩

/-- Embedding of `KSUID::timestamp` from src/ksuid.rs:
`from_ksuid_time(BigEndian::read_u32(&self.0))`. -/
def timestamp (k : KSUID) : DateTimeUtc := from_ksuid_time (read_u32 k.bytes 0)

instance : DecidableEq (Except KSUIDError (List Nat)) := fun a b =>
  match a, b with
  | .ok x, .ok y =>
    if h : x = y then isTrue (by rw [h]) else isFalse fun hc => h (Except.ok.inj hc)
  | .error e, .error f =>
    if h : e = f then isTrue (by rw [h]) else isFalse fun hc => h (Except.error.inj hc)
  | .ok _, .error _ => isFalse fun hc => Except.noConfusion hc
  | .error _, .ok _ => isFalse fun hc => Except.noConfusion hc

/-! Arithmetic helper lemmas about `val` and `padDigits`. -/

theorem val_append (B : Nat) (l1 l2 : List Nat) :
    val B (l1 ++ l2) = val B l1 * B ^ l2.length + val B l2 := by
  induction l1 with
  | nil => simp [val]
  | cons d ds ih =>
    simp only [List.cons_append, val, List.append_eq, List.length_append, ih]
    ring

theorem val_lt (B : Nat) (l : List Nat) (h : ∀ x ∈ l, x < B) :
    val B l < B ^ l.length := by
  induction l with
  | nil => simp [val]
  | cons d ds ih =>
    simp only [val, List.length_cons]
    have h1 : val B ds < B ^ ds.length := ih fun x hx => h x (List.mem_cons_of_mem _ hx)
    have h2 : d < B := h d (List.mem_cons_self _ _)
    calc d * B ^ ds.length + val B ds
        < d * B ^ ds.length + B ^ ds.length := Nat.add_lt_add_left h1 _
      _ = (d + 1) * B ^ ds.length := by ring
      _ ≤ B * B ^ ds.length := Nat.mul_le_mul_right _ h2
      _ = B ^ (ds.length + 1) := by ring

theorem padDigits_length (B : Nat) : ∀ (n N : Nat), (padDigits B N n).length = n
  | 0, _ => rfl
  | n + 1, N => by simp [padDigits, padDigits_length B n]

theorem padDigits_zero (B : Nat) : ∀ n : Nat, padDigits B 0 n = List.replicate n 0
  | 0 => rfl
  | n + 1 => by
    simp [padDigits, padDigits_zero B n, Nat.zero_div, List.replicate_succ']

theorem padDigits_lt (B : Nat) (hB : 0 < B) :
    ∀ (n N : Nat), ∀ d ∈ padDigits B N n, d < B
  | 0, N => by simp [padDigits]
  | n + 1, N => by
    simp only [padDigits, List.mem_append, List.mem_singleton]
    rintro d (hd | rfl)
    · exact padDigits_lt B hB n _ d hd
    · exact Nat.mod_lt _ hB

theorem padDigits_add (B : Nat) : ∀ (b a N : Nat),
    padDigits B N (a + b) = padDigits B (N / B ^ b) a ++ padDigits B N b
  | 0, a, N => by simp [padDigits]
  | b + 1, a, N => by
    show padDigits B N (a + b + 1) = _
    simp only [padDigits]
    rw [padDigits_add B b a (N / B), Nat.div_div_eq_div_mul,
      show B * B ^ b = B ^ (b + 1) by ring, List.append_assoc]

theorem mod_pow_succ_eq (B : Nat) (hB : 0 < B) (M n : Nat) :
    M % B ^ (n + 1) = M / B % B ^ n * B + M % B := by
  have key : M = B ^ (n + 1) * (M / B / B ^ n) + (M / B % B ^ n * B + M % B) := by
    calc M = B * (M / B) + M % B := (Nat.div_add_mod M B).symm
      _ = B * (B ^ n * (M / B / B ^ n) + M / B % B ^ n) + M % B := by
          rw [Nat.div_add_mod (M / B) (B ^ n)]
      _ = B ^ (n + 1) * (M / B / B ^ n) + (M / B % B ^ n * B + M % B) := by ring
  have hlt : M / B % B ^ n * B + M % B < B ^ (n + 1) := by
    have ha : M / B % B ^ n < B ^ n := Nat.mod_lt _ (pow_pos hB n)
    have hb : M % B < B := Nat.mod_lt _ hB
    calc M / B % B ^ n * B + M % B
        < M / B % B ^ n * B + B := Nat.add_lt_add_left hb _
      _ = (M / B % B ^ n + 1) * B := by ring
      _ ≤ B ^ n * B := Nat.mul_le_mul_right _ ha
      _ = B ^ (n + 1) := by ring
  conv_lhs => rw [key]
  rw [Nat.mul_add_mod]
  exact Nat.mod_eq_of_lt hlt

theorem val_padDigits (B : Nat) (hB : 0 < B) :
    ∀ (n N : Nat), val B (padDigits B N n) = N % B ^ n
  | 0, N => by simp [padDigits, val, Nat.mod_one]
  | n + 1, N => by
    simp only [padDigits]
    rw [val_append, val_padDigits B hB n (N / B), mod_pow_succ_eq B hB N n]
    simp [val]

theorem padDigits_val_self (B : Nat) (l : List Nat) (hB : 0 < B)
    (h : ∀ x ∈ l, x < B) : padDigits B (val B l) l.length = l := by
  induction l using List.reverseRecOn with
  | nil => rfl
  | append_singleton l d ih =>
    have hd : d < B := h d (by simp)
    have hl : ∀ x ∈ l, x < B := fun x hx => h x (by simp [hx])
    have hv : val B (l ++ [d]) = val B l * B + d := by rw [val_append]; simp [val]
    have hdiv : (val B l * B + d) / B = val B l := by
      rw [show val B l * B + d = d + B * val B l by ring,
        Nat.add_mul_div_left _ _ hB, Nat.div_eq_of_lt hd, Nat.zero_add]
    have hmod : (val B l * B + d) % B = d := by
      rw [show val B l * B + d = B * val B l + d by ring, Nat.mul_add_mod,
        Nat.mod_eq_of_lt hd]
    rw [List.length_append, List.length_singleton, hv]
    show padDigits B (val B l * B + d) (l.length + 1) = l ++ [d]
    simp only [padDigits, hdiv, hmod, ih hl]

theorem getD_lt (l : List Nat) (i B : Nat) (hB : 0 < B) (h : ∀ x ∈ l, x < B) :
    l.getD i 0 < B := by
  rcases hq : l[i]? with _ | a
  · simpa [List.getD_eq_getElem?_getD, hq] using hB
  · have ha := List.getElem?_mem hq
    simp only [List.getD_eq_getElem?_getD, hq, Option.getD_some]
    exact h a ha

theorem set_replicate_append (x c : Nat) : ∀ (m : Nat) (t : List Nat),
    (List.replicate (m + 1) x ++ t).set m c = List.replicate m x ++ c :: t
  | 0, t => by simp
  | m + 1, t => by
    have h1 : List.replicate (m + 1 + 1) x ++ t = x :: (List.replicate (m + 1) x ++ t) := by
      simp [List.replicate_succ]
    rw [h1, List.set_cons_succ, set_replicate_append x c m t, List.replicate_succ]
    simp

/-! Core lemmas about one long-division pass (`divLoopAux`).  Throughout,
`D` is the divisor, `S` the limb base of the input digits and `C` the
storage modulus of the produced quotient limbs. -/

theorem divLoopAux_snd (C D S : Nat) (hD : 0 < D) :
    ∀ (parts acc : List Nat) (r : Nat), r < D →
      (divLoopAux C D S parts acc r).2 = (r * S ^ parts.length + val S parts) % D
  | [], acc, r, hr => by
    simp [divLoopAux, val, Nat.mod_eq_of_lt hr]
  | p :: ps, acc, r, hr => by
    simp only [divLoopAux]
    rw [divLoopAux_snd C D S hD ps _ _ (Nat.mod_lt _ hD)]
    have hcong : (p + r * S) % D * S ^ ps.length + val S ps
        ≡ (p + r * S) * S ^ ps.length + val S ps [MOD D] :=
      ((Nat.mod_modEq _ _).mul_right _).add_right _
    have heq : (p + r * S) * S ^ ps.length + val S ps
        = r * S ^ (p :: ps).length + val S (p :: ps) := by
      simp only [val, List.length_cons]
      ring
    exact heq ▸ hcong

theorem divLoopAux_fst_val (C D S : Nat) (hD : 0 < D) :
    ∀ (parts acc : List Nat) (r : Nat), r < D →
      (∀ p ∈ parts, p + (D - 1) * S < C * D) →
      val S (divLoopAux C D S parts acc r).1
        = val S acc * S ^ parts.length + (r * S ^ parts.length + val S parts) / D
  | [], acc, r, hr, _ => by
    simp [divLoopAux, val, Nat.div_eq_of_lt hr]
  | p :: ps, acc, r, hr, hp => by
    simp only [divLoopAux]
    have hrS : p + r * S ≤ p + (D - 1) * S :=
      Nat.add_le_add_left (Nat.mul_le_mul_right _ (by omega)) _
    have hCD : p + (D - 1) * S < D * C := by
      rw [Nat.mul_comm D C]
      exact hp p (List.mem_cons_self _ _)
    have hdig : (p + r * S) / D < C := Nat.div_lt_of_lt_mul (lt_of_le_of_lt hrS hCD)
    have hdig' : (p + r * S) / D % C = (p + r * S) / D := Nat.mod_eq_of_lt hdig
    rw [divLoopAux_fst_val C D S hD ps _ _ (Nat.mod_lt _ hD)
      (fun q hq => hp q (List.mem_cons_of_mem _ hq))]
    have hacc : val S (if acc = [] ∧ (p + r * S) / D % C = 0 then acc
        else acc ++ [(p + r * S) / D % C]) = val S acc * S + (p + r * S) / D := by
      rw [hdig']
      by_cases hc : acc = [] ∧ (p + r * S) / D = 0
      · rw [if_pos hc]
        simp [hc.1, hc.2, val]
      · rw [if_neg hc, val_append]
        simp [val]
    rw [hacc]
    have hsplit : (r * S ^ (p :: ps).length + val S (p :: ps)) / D
        = ((p + r * S) % D * S ^ ps.length + val S ps) / D
          + (p + r * S) / D * S ^ ps.length := by
      have hnum : r * S ^ (p :: ps).length + val S (p :: ps)
          = ((p + r * S) % D * S ^ ps.length + val S ps)
            + D * ((p + r * S) / D * S ^ ps.length) := by
        have hdm : D * ((p + r * S) / D) + (p + r * S) % D = p + r * S :=
          Nat.div_add_mod _ _
        simp only [val, List.length_cons]
        calc r * S ^ (ps.length + 1) + (p * S ^ ps.length + val S ps)
            = (p + r * S) * S ^ ps.length + val S ps := by ring
          _ = (D * ((p + r * S) / D) + (p + r * S) % D) * S ^ ps.length + val S ps := by
              rw [hdm]
          _ = _ := by ring
      rw [hnum, Nat.add_mul_div_left _ _ hD]
    rw [hsplit]
    simp only [List.length_cons]
    ring

theorem divLoopAux_fst_nil (C D S : Nat) (hD : 0 < D) (hS : 0 < S) :
    ∀ (parts : List Nat) (r : Nat), r < D →
      (r * S ^ parts.length + val S parts) / D = 0 →
      (divLoopAux C D S parts [] r).1 = []
  | [], _, _, _ => rfl
  | p :: ps, r, hr, hq => by
    have hT : r * S ^ (p :: ps).length + val S (p :: ps) < D :=
      (Nat.div_eq_zero_iff hD).mp hq
    have h1 : (p + r * S) * S ^ ps.length ≤ r * S ^ (p :: ps).length + val S (p :: ps) := by
      simp only [val, List.length_cons]
      rw [show (p + r * S) * S ^ ps.length
        = r * S ^ (ps.length + 1) + p * S ^ ps.length by ring]
      exact Nat.add_le_add_left (Nat.le_add_right _ _) _
    have hpr : p + r * S < D :=
      lt_of_le_of_lt ((Nat.le_mul_of_pos_right _ (pow_pos hS ps.length)).trans h1) hT
    have hdig : (p + r * S) / D = 0 := Nat.div_eq_of_lt hpr
    have hmod : (p + r * S) % D = p + r * S := Nat.mod_eq_of_lt hpr
    have hrec : ((p + r * S) * S ^ ps.length + val S ps) / D = 0 := by
      apply Nat.div_eq_of_lt
      apply lt_of_le_of_lt _ hT
      simp only [val, List.length_cons]
      exact le_of_eq (by ring)
    have hskip : (if ([] : List Nat) = [] ∧ (p + r * S) / D % C = 0 then ([] : List Nat)
        else [] ++ [(p + r * S) / D % C]) = [] := by
      rw [if_pos ⟨rfl, by rw [hdig]; exact Nat.zero_mod C⟩]
    show (divLoopAux C D S ps
        (if ([] : List Nat) = [] ∧ (p + r * S) / D % C = 0 then ([] : List Nat)
          else [] ++ [(p + r * S) / D % C]) ((p + r * S) % D)).1 = []
    rw [hskip, hmod]
    exact divLoopAux_fst_nil C D S hD hS ps (p + r * S) hpr hrec

theorem divLoopAux_fst_lt (C D S : Nat) (hC : 0 < C) :
    ∀ (parts acc : List Nat) (r : Nat), (∀ a ∈ acc, a < C) →
      ∀ q ∈ (divLoopAux C D S parts acc r).1, q < C
  | [], acc, _, hacc => by simpa [divLoopAux] using hacc
  | p :: ps, acc, r, hacc => by
    simp only [divLoopAux]
    apply divLoopAux_fst_lt C D S hC ps _ _
    intro a ha
    by_cases hc : acc = [] ∧ (p + r * S) / D % C = 0
    · rw [if_pos hc] at ha
      exact hacc a ha
    · rw [if_neg hc] at ha
      rcases List.mem_append.mp ha with h | h
      · exact hacc a h
      · rw [List.mem_singleton.mp h]
        exact Nat.mod_lt _ hC

/-! Correctness of the encode loop: it produces the fixed-width base-62
expansion of the value of its limbs, written over the zero-padded buffer. -/

theorem encodeLoop_eq : ∀ (n : Nat), ∀ (parts tail : List Nat),
    parts ≠ [] → 0 < n → (∀ p ∈ parts, p < 2 ^ 32) →
    val (2 ^ 32) parts < 62 ^ n →
    encodeLoop n parts (List.replicate n 48 ++ tail)
      = some ((padDigits 62 (val (2 ^ 32) parts) n).map b62char ++ tail)
  | 0, parts, tail => fun _ h0 _ _ => absurd h0 (lt_irrefl 0)
  | m + 1, parts, tail => by
    intro hne _ hlimb hbound
    obtain ⟨p, ps, rfl⟩ := List.exists_cons_of_ne_nil hne
    simp only [encodeLoop]
    set pr := divLoopAux (2 ^ 32) 62 (2 ^ 32) (p :: ps) [] 0 with hpr
    have hr : pr.2 = val (2 ^ 32) (p :: ps) % 62 := by
      rw [hpr]
      simpa using divLoopAux_snd (2 ^ 32) 62 (2 ^ 32) (by norm_num) (p :: ps) [] 0 (by norm_num)
    have hq : val (2 ^ 32) pr.1 = val (2 ^ 32) (p :: ps) / 62 := by
      rw [hpr]
      have := divLoopAux_fst_val (2 ^ 32) 62 (2 ^ 32) (by norm_num) (p :: ps) [] 0 (by norm_num)
        (fun q hqm => by
          have := hlimb q hqm
          norm_num at this ⊢
          omega)
      simpa [val] using this
    have hsetdst : (List.replicate (m + 1) 48 ++ tail).set m (BASE62_CHARS.getD pr.2 0)
        = List.replicate m 48 ++ b62char (val (2 ^ 32) (p :: ps) % 62) :: tail := by
      rw [set_replicate_append, hr]
      rfl
    rw [hsetdst]
    by_cases hz : val (2 ^ 32) (p :: ps) / 62 = 0
    · have hnil : pr.1 = [] := by
        rw [hpr]
        exact divLoopAux_fst_nil (2 ^ 32) 62 (2 ^ 32) (by norm_num) (by norm_num) (p :: ps) 0
          (by norm_num) (by simpa using hz)
      rw [hnil]
      simp only [encodeLoop]
      simp only [padDigits, hz, padDigits_zero, List.map_append, List.map_replicate]
      rw [show b62char 0 = 48 by decide]
      simp
    · have hnenil : pr.1 ≠ [] := by
        intro h
        apply hz
        rw [h] at hq
        simpa [val] using hq.symm
      have hm : 0 < m := by
        rcases Nat.eq_zero_or_pos m with h0 | h
        · subst h0
          rw [pow_one] at hbound
          exact absurd (Nat.div_eq_of_lt hbound) hz
        · exact h
      have hdb : val (2 ^ 32) (p :: ps) / 62 < 62 ^ m := by
        apply Nat.div_lt_of_lt_mul
        exact lt_of_lt_of_eq hbound (by ring)
      have hplt : ∀ q ∈ pr.1, q < 2 ^ 32 := by
        rw [hpr]
        exact divLoopAux_fst_lt (2 ^ 32) 62 (2 ^ 32) (by norm_num) (p :: ps) [] 0 (by simp)
      have IH := encodeLoop_eq m pr.1 (b62char (val (2 ^ 32) (p :: ps) % 62) :: tail)
        hnenil hm hplt (by rw [hq]; exact hdb)
      rw [IH, hq]
      simp [padDigits, List.map_append]

/-- Value of the five big-endian 32-bit limbs equals the big-endian byte
value of the 20 input bytes. -/
theorem val_limbs (src : List Nat) (hlen : src.length = 20) :
    val (2 ^ 32) [read_u32 src 0, read_u32 src 4, read_u32 src 8, read_u32 src 12,
      read_u32 src 16] = val 256 src := by
  rcases src with _ | ⟨x0, src⟩; · simp at hlen
  rcases src with _ | ⟨x1, src⟩; · simp at hlen
  rcases src with _ | ⟨x2, src⟩; · simp at hlen
  rcases src with _ | ⟨x3, src⟩; · simp at hlen
  rcases src with _ | ⟨x4, src⟩; · simp at hlen
  rcases src with _ | ⟨x5, src⟩; · simp at hlen
  rcases src with _ | ⟨x6, src⟩; · simp at hlen
  rcases src with _ | ⟨x7, src⟩; · simp at hlen
  rcases src with _ | ⟨x8, src⟩; · simp at hlen
  rcases src with _ | ⟨x9, src⟩; · simp at hlen
  rcases src with _ | ⟨x10, src⟩; · simp at hlen
  rcases src with _ | ⟨x11, src⟩; · simp at hlen
  rcases src with _ | ⟨x12, src⟩; · simp at hlen
  rcases src with _ | ⟨x13, src⟩; · simp at hlen
  rcases src with _ | ⟨x14, src⟩; · simp at hlen
  rcases src with _ | ⟨x15, src⟩; · simp at hlen
  rcases src with _ | ⟨x16, src⟩; · simp at hlen
  rcases src with _ | ⟨x17, src⟩; · simp at hlen
  rcases src with _ | ⟨x18, src⟩; · simp at hlen
  rcases src with _ | ⟨x19, src⟩; · simp at hlen
  rcases src with _ | ⟨x20, src⟩
  · simp only [read_u32, List.getD_cons_zero, List.getD_cons_succ, val,
      List.length_cons, List.length_nil]
    ring
  · simp at hlen

theorem read_u32_lt (l : List Nat) (i : Nat) (h : ∀ x ∈ l, x < 256) :
    read_u32 l i < 2 ^ 32 := by
  have h0 := getD_lt l i 256 (by norm_num) h
  have h1 := getD_lt l (i + 1) 256 (by norm_num) h
  have h2 := getD_lt l (i + 2) 256 (by norm_num) h
  have h3 := getD_lt l (i + 3) 256 (by norm_num) h
  simp only [read_u32]
  norm_num at h0 h1 h2 h3 ⊢
  omega

/-- Main characterisation of `encode`: on a 20-byte input it succeeds and
returns the fixed-width 27-digit base-62 expansion of the input's value,
rendered through the alphabet. -/
theorem encode_eq (src : List Nat) (hlen : src.length = 20) (hb : ∀ x ∈ src, x < 256) :
    encode src = some ((padDigits 62 (val 256 src) 27).map b62char) := by
  have hv256 : val 256 src < 2 ^ 160 := by
    have := val_lt 256 src hb
    rw [hlen] at this
    calc val 256 src < 256 ^ 20 := this
      _ = 2 ^ 160 := by norm_num
  have hv62 : val 256 src < 62 ^ 27 := lt_trans hv256 (by norm_num)
  have hlimb : ∀ p ∈ [read_u32 src 0, read_u32 src 4, read_u32 src 8, read_u32 src 12,
      read_u32 src 16], p < 2 ^ 32 := by
    intro p hp
    simp only [List.mem_cons, List.not_mem_nil, or_false] at hp
    rcases hp with rfl | rfl | rfl | rfl | rfl <;> exact read_u32_lt src _ hb
  have := encodeLoop_eq 27
    [read_u32 src 0, read_u32 src 4, read_u32 src 8, read_u32 src 12, read_u32 src 16] []
    (by simp) (by norm_num) hlimb (by rw [val_limbs src hlen]; exact hv62)
  rw [val_limbs src hlen] at this
  simpa [encode] using this

/-! Correctness of the decode loop. -/

theorem base62_value_lt (d : Nat) : base62_value d < 256 := by
  simp only [base62_value]
  split_ifs <;> omega

theorem write4_replicate (r : Nat) : ∀ (m : Nat) (t : List Nat),
    write4 (List.replicate (m + 4) 0 ++ t) (m + 4) r
      = List.replicate m 0
        ++ r >>> 24 % 256 :: r >>> 16 % 256 :: r >>> 8 % 256 :: r % 256 :: t
  | 0, t => by simp [write4, List.replicate]
  | m + 1, t => by
    have hcons : List.replicate (m + 1 + 4) 0 ++ t = 0 :: (List.replicate (m + 4) 0 ++ t) := by
      rw [show m + 1 + 4 = (m + 4) + 1 by omega, List.replicate_succ, List.cons_append]
    simp only [write4, hcons]
    rw [show m + 1 + 4 - 4 = m + 4 - 4 + 1 by omega,
      show m + 1 + 4 - 3 = m + 4 - 3 + 1 by omega,
      show m + 1 + 4 - 2 = m + 4 - 2 + 1 by omega,
      show m + 1 + 4 - 1 = m + 4 - 1 + 1 by omega]
    simp only [List.set_cons_succ]
    have IH := write4_replicate r m t
    simp only [write4] at IH
    rw [IH, List.replicate_succ, List.cons_append]

theorem padDigits_four (M : Nat) :
    padDigits 256 M 4
      = [(M % 2 ^ 32) >>> 24 % 256, (M % 2 ^ 32) >>> 16 % 256,
         (M % 2 ^ 32) >>> 8 % 256, M % 2 ^ 32 % 256] := by
  simp [padDigits, Nat.shiftRight_eq_div_pow, Nat.div_div_eq_div_mul]
  norm_num
  omega

/-- Remainder of one decode division pass: the value of the 27 digits modulo
the limb base. -/
theorem decode_pass_snd (p : Nat) (ps : List Nat) :
    (divLoopAux 256 (2 ^ 32) 62 (p :: ps) [] 0).2 = val 62 (p :: ps) % 2 ^ 32 := by
  simpa using divLoopAux_snd 256 (2 ^ 32) 62 (by norm_num) (p :: ps) [] 0 (by norm_num)

/-- Quotient of one decode division pass: the value of the digits divided by
the limb base. -/
theorem decode_pass_fst (p : Nat) (ps : List Nat) (hbyte : ∀ q ∈ p :: ps, q < 256) :
    val 62 (divLoopAux 256 (2 ^ 32) 62 (p :: ps) [] 0).1 = val 62 (p :: ps) / 2 ^ 32 := by
  have := divLoopAux_fst_val 256 (2 ^ 32) 62 (by norm_num) (p :: ps) [] 0 (by norm_num)
    (fun q hqm => by
      have := hbyte q hqm
      norm_num at this ⊢
      omega)
  simpa [val] using this

theorem decodeLoop_ok (src : List Nat) : ∀ (k : Nat), ∀ (parts tail : List Nat),
    parts ≠ [] → 0 < k → (∀ p ∈ parts, p < 256) →
    val 62 parts < 2 ^ (32 * k) →
    decodeLoop src parts (List.replicate (4 * k) 0 ++ tail) (4 * k)
      = .ok (padDigits 256 (val 62 parts) (4 * k) ++ tail)
  | 0, parts, tail => fun _ h0 _ _ => absurd h0 (lt_irrefl 0)
  | k + 1, parts, tail => by
    intro hne _ hbyte hbound
    obtain ⟨p, ps, rfl⟩ := List.exists_cons_of_ne_nil hne
    rw [show 4 * (k + 1) = 4 * k + 4 by ring]
    simp only [decodeLoop]
    set pr := divLoopAux 256 (2 ^ 32) 62 (p :: ps) [] 0 with hpr
    have hr : pr.2 = val 62 (p :: ps) % 2 ^ 32 := decode_pass_snd p ps
    have hq : val 62 pr.1 = val 62 (p :: ps) / 2 ^ 32 := decode_pass_fst p ps hbyte
    have hw := write4_replicate pr.2 (4 * k) tail
    rw [hw, hr]
    have hchunk : padDigits 256 (val 62 (p :: ps)) (4 * k + 4)
        = padDigits 256 (val 62 (p :: ps) / 2 ^ 32) (4 * k)
          ++ padDigits 256 (val 62 (p :: ps)) 4 := by
      rw [padDigits_add 256 4 (4 * k) _, show (256 : Nat) ^ 4 = 2 ^ 32 by norm_num]
    by_cases hz : val 62 (p :: ps) / 2 ^ 32 = 0
    · have hnil : pr.1 = [] := by
        rw [hpr]
        exact divLoopAux_fst_nil 256 (2 ^ 32) 62 (by norm_num) (by norm_num) (p :: ps) 0
          (by norm_num) (by simpa using hz)
      rw [hnil]
      simp only [decodeLoop]
      rw [hchunk, hz, padDigits_zero, padDigits_four]
      simp
    · have hnenil : pr.1 ≠ [] := by
        intro h
        apply hz
        rw [h] at hq
        simpa [val] using hq.symm
      have hM32 : 2 ^ 32 ≤ val 62 (p :: ps) := by
        by_contra hcon
        push_neg at hcon
        exact hz (Nat.div_eq_of_lt hcon)
      have hkpos : 0 < k := by
        rcases Nat.eq_zero_or_pos k with h0 | h
        · exfalso
          subst h0
          rw [show 32 * (0 + 1) = 32 by norm_num] at hbound
          exact absurd hbound (not_lt.mpr hM32)
        · exact h
      have hplt : ∀ q ∈ pr.1, q < 256 := by
        rw [hpr]
        exact divLoopAux_fst_lt 256 (2 ^ 32) 62 (by norm_num) (p :: ps) [] 0 (by simp)
      have hdb : val 62 (p :: ps) / 2 ^ 32 < 2 ^ (32 * k) := by
        apply Nat.div_lt_of_lt_mul
        calc val 62 (p :: ps) < 2 ^ (32 * (k + 1)) := hbound
          _ = 2 ^ (32 + 32 * k) := by rw [show 32 * (k + 1) = 32 + 32 * k by ring]
          _ = 2 ^ 32 * 2 ^ (32 * k) := pow_add 2 32 (32 * k)
      have IH := decodeLoop_ok src k pr.1
        ((val 62 (p :: ps) % 2 ^ 32) >>> 24 % 256 :: (val 62 (p :: ps) % 2 ^ 32) >>> 16 % 256 ::
          (val 62 (p :: ps) % 2 ^ 32) >>> 8 % 256 :: val 62 (p :: ps) % 2 ^ 32 % 256 :: tail)
        hnenil hkpos hplt (by rw [hq]; exact hdb)
      rw [IH, hq, hchunk, padDigits_four]
      simp

theorem decodeLoop_err (src : List Nat) : ∀ (k : Nat), ∀ (parts result : List Nat),
    parts ≠ [] → (∀ p ∈ parts, p < 256) → 2 ^ (32 * k) ≤ val 62 parts →
    decodeLoop src parts result (4 * k) = .error (.invalidBase62Length src)
  | 0, parts, result => by
    intro hne _ _
    obtain ⟨p, ps, rfl⟩ := List.exists_cons_of_ne_nil hne
    rw [show 4 * 0 = 0 by norm_num]
    simp only [decodeLoop]
  | k + 1, parts, result => by
    intro hne hbyte hbound
    obtain ⟨p, ps, rfl⟩ := List.exists_cons_of_ne_nil hne
    rw [show 4 * (k + 1) = 4 * k + 4 by ring]
    simp only [decodeLoop]
    have hq1 : 2 ^ (32 * k) ≤ val 62 (p :: ps) / 2 ^ 32 := by
      rw [Nat.le_div_iff_mul_le (by positivity)]
      calc 2 ^ (32 * k) * 2 ^ 32 = 2 ^ (32 * k + 32) := (pow_add 2 (32 * k) 32).symm
        _ = 2 ^ (32 * (k + 1)) := by rw [show 32 * k + 32 = 32 * (k + 1) by ring]
        _ ≤ val 62 (p :: ps) := hbound
    have hnenil : (divLoopAux 256 (2 ^ 32) 62 (p :: ps) [] 0).1 ≠ [] := by
      intro h
      have h0 := decode_pass_fst p ps hbyte
      rw [h] at h0
      rw [show val 62 ([] : List Nat) = 0 from rfl] at h0
      have hpow : 0 < 2 ^ (32 * k) := pow_pos (by norm_num) _
      omega
    have hplt : ∀ q ∈ (divLoopAux 256 (2 ^ 32) 62 (p :: ps) [] 0).1, q < 256 :=
      divLoopAux_fst_lt 256 (2 ^ 32) 62 (by norm_num) (p :: ps) [] 0 (by simp)
    exact decodeLoop_err src k (divLoopAux 256 (2 ^ 32) 62 (p :: ps) [] 0).1 _
      hnenil hplt (by rw [decode_pass_fst p ps hbyte]; exact hq1)

/-- Main characterisation of `decode`: on any input of at least 27 bytes it
ignores everything past byte 27, and succeeds with the 20-byte big-endian
expansion of the base-62 value of the first 27 digit values exactly when
that value fits in 160 bits, failing with `InvalidBase62Length` (carrying
the whole input) otherwise. -/
theorem decode_eq (src : List Nat) (hlen : 27 ≤ src.length) :
    decode src
      = if val 62 ((src.take 27).map base62_value) < 2 ^ 160
        then .ok (padDigits 256 (val 62 ((src.take 27).map base62_value)) 20)
        else .error (.invalidBase62Length src) := by
  have hnlt : ¬ src.length < 27 := not_lt.mpr hlen
  have hplen : ((src.take 27).map base62_value).length = 27 := by
    simp [List.length_take, Nat.min_eq_left hlen]
  have hpne : (src.take 27).map base62_value ≠ [] := by
    intro h
    rw [h] at hplen
    simp at hplen
  have hbyte : ∀ q ∈ (src.take 27).map base62_value, q < 256 := by
    intro q hq
    rcases List.mem_map.mp hq with ⟨c, _, rfl⟩
    exact base62_value_lt c
  simp only [decode, if_neg hnlt]
  by_cases hM : val 62 ((src.take 27).map base62_value) < 2 ^ 160
  · rw [if_pos hM]
    have := decodeLoop_ok src 5 ((src.take 27).map base62_value) [] hpne (by norm_num) hbyte
      (by rw [show 32 * 5 = 160 by norm_num]; exact hM)
    rw [show (4 * 5 : Nat) = 20 by norm_num] at this
    simpa using this
  · rw [if_neg hM]
    have := decodeLoop_err src 5 ((src.take 27).map base62_value) (List.replicate 20 0)
      hpne hbyte (by rw [show 32 * 5 = 160 by norm_num]; omega)
    rw [show (4 * 5 : Nat) = 20 by norm_num] at this
    exact this

/-! Properties of the alphabet and of lexicographic comparison. -/

theorem b62char_val : ∀ d : Fin 62,
    b62char d.val = if d.val < 10 then 48 + d.val
      else if d.val < 36 then 55 + d.val else 61 + d.val := by decide

theorem b62char_lt_iff (a b : Nat) (ha : a < 62) (hb : b < 62) :
    b62char a < b62char b ↔ a < b := by
  have h1 : b62char a = if a < 10 then 48 + a else if a < 36 then 55 + a else 61 + a :=
    b62char_val ⟨a, ha⟩
  have h2 : b62char b = if b < 10 then 48 + b else if b < 36 then 55 + b else 61 + b :=
    b62char_val ⟨b, hb⟩
  rw [h1, h2]
  split_ifs <;> omega

theorem b62char_eq_iff (a b : Nat) (ha : a < 62) (hb : b < 62) :
    b62char a = b62char b ↔ a = b := by
  have h1 : b62char a = if a < 10 then 48 + a else if a < 36 then 55 + a else 61 + a :=
    b62char_val ⟨a, ha⟩
  have h2 : b62char b = if b < 10 then 48 + b else if b < 36 then 55 + b else 61 + b :=
    b62char_val ⟨b, hb⟩
  rw [h1, h2]
  split_ifs <;> omega

theorem b62char_mem : ∀ d : Fin 62, b62char d.val ∈ BASE62_CHARS := by decide

theorem base62_value_b62char : ∀ d : Fin 62, base62_value (b62char d.val) = d.val := by decide

theorem lexLt_iff_val (B : Nat) : ∀ (l1 l2 : List Nat), l1.length = l2.length →
    (∀ x ∈ l1, x < B) → (∀ x ∈ l2, x < B) →
    (lexLt l1 l2 = true ↔ val B l1 < val B l2)
  | [], [], _, _, _ => by simp [lexLt, val]
  | [], _ :: _, h, _, _ => by simp at h
  | _ :: _, [], h, _, _ => by simp at h
  | a :: as, b :: bs, h, h1, h2 => by
    have hlen : as.length = bs.length := by simpa using h
    have hv1 : val B as < B ^ as.length :=
      val_lt B as fun x hx => h1 x (List.mem_cons_of_mem _ hx)
    have hv2 : val B bs < B ^ bs.length :=
      val_lt B bs fun x hx => h2 x (List.mem_cons_of_mem _ hx)
    have IH := lexLt_iff_val B as bs hlen (fun x hx => h1 x (List.mem_cons_of_mem _ hx))
      (fun x hx => h2 x (List.mem_cons_of_mem _ hx))
    simp only [lexLt, val, Bool.or_eq_true, Bool.and_eq_true, decide_eq_true_eq, IH]
    rw [hlen]
    constructor
    · rintro (hab | ⟨rfl, hvv⟩)
      · calc a * B ^ bs.length + val B as
            < a * B ^ bs.length + B ^ bs.length := Nat.add_lt_add_left (hlen ▸ hv1) _
          _ = (a + 1) * B ^ bs.length := by ring
          _ ≤ b * B ^ bs.length := Nat.mul_le_mul_right _ hab
          _ ≤ b * B ^ bs.length + val B bs := Nat.le_add_right _ _
      · exact Nat.add_lt_add_left hvv _
    · intro hlt
      rcases lt_trichotomy a b with hab | rfl | hba
      · exact Or.inl hab
      · exact Or.inr ⟨rfl, Nat.lt_of_add_lt_add_left hlt⟩
      · exfalso
        have hgt : b * B ^ bs.length + val B bs < a * B ^ bs.length + val B as := by
          calc b * B ^ bs.length + val B bs
              < b * B ^ bs.length + B ^ bs.length := Nat.add_lt_add_left (hlen ▸ hv2) _
            _ = (b + 1) * B ^ bs.length := by ring
            _ ≤ a * B ^ bs.length := Nat.mul_le_mul_right _ hba
            _ ≤ a * B ^ bs.length + val B as := Nat.le_add_right _ _
        omega

theorem lexLt_map_b62char : ∀ (l1 l2 : List Nat),
    (∀ x ∈ l1, x < 62) → (∀ x ∈ l2, x < 62) →
    lexLt (l1.map b62char) (l2.map b62char) = lexLt l1 l2
  | [], [], _, _ => rfl
  | [], _ :: _, _, _ => rfl
  | _ :: _, [], _, _ => rfl
  | a :: as, b :: bs, h1, h2 => by
    have ha : a < 62 := h1 a (List.mem_cons_self _ _)
    have hb : b < 62 := h2 b (List.mem_cons_self _ _)
    simp only [List.map, lexLt]
    rw [lexLt_map_b62char as bs (fun x hx => h1 x (List.mem_cons_of_mem _ hx))
        (fun x hx => h2 x (List.mem_cons_of_mem _ hx)),
      decide_eq_decide.mpr (b62char_lt_iff a b ha hb),
      decide_eq_decide.mpr (b62char_eq_iff a b ha hb)]

/-! Claim theorems. -/

/-- C1: for every 20-byte array `b` (including the all-zero and all-0xFF
arrays), decoding the string produced by `encode b` succeeds and returns
exactly `b`. -/
theorem C1_encode_decode_roundtrip (b : List Nat) (hlen : b.length = 20)
    (hb : ∀ x ∈ b, x < 256) :
    ∃ s, encode b = some s ∧ decode s = Except.ok b := by
  have henc := encode_eq b hlen hb
  refine ⟨_, henc, ?_⟩
  have hdig62 : ∀ d ∈ padDigits 62 (val 256 b) 27, d < 62 :=
    padDigits_lt 62 (by norm_num) 27 _
  have hslen : ((padDigits 62 (val 256 b) 27).map b62char).length = 27 := by
    simp [padDigits_length]
  have htake : ((padDigits 62 (val 256 b) 27).map b62char).take 27
      = (padDigits 62 (val 256 b) 27).map b62char :=
    List.take_of_length_le (le_of_eq hslen)
  have hmapval : (((padDigits 62 (val 256 b) 27).map b62char).take 27).map base62_value
      = padDigits 62 (val 256 b) 27 := by
    rw [htake, List.map_map]
    have hcomp : ∀ d ∈ padDigits 62 (val 256 b) 27, (base62_value ∘ b62char) d = id d := by
      intro d hd
      simpa using base62_value_b62char ⟨d, hdig62 d hd⟩
    rw [List.map_congr_left hcomp, List.map_id]
  have hN2 : val 256 b < 2 ^ 160 := by
    have hv := val_lt 256 b hb
    rw [hlen] at hv
    calc val 256 b < 256 ^ 20 := hv
      _ = 2 ^ 160 := by norm_num
  have hvv : val 62 (padDigits 62 (val 256 b) 27) = val 256 b := by
    rw [val_padDigits 62 (by norm_num) 27 _]
    exact Nat.mod_eq_of_lt (lt_trans hN2 (by norm_num))
  have hself : padDigits 256 (val 256 b) 20 = b := by
    have h0 := padDigits_val_self 256 b (by norm_num) hb
    rw [hlen] at h0
    exact h0
  rw [decode_eq _ (le_of_eq hslen.symm), hmapval, hvv, if_pos hN2, hself]

theorem C1_encode_decode_roundtrip_witness :
    ∃ s, encode (List.replicate 20 0) = some s ∧
      decode s = Except.ok (List.replicate 20 0) :=
  C1_encode_decode_roundtrip (List.replicate 20 0) (by decide) (by decide)

/-- C2: for all 20-byte arrays `b1`, `b2`, the value of `b1` as an unsigned
big-endian 160-bit integer is smaller than that of `b2` exactly when the
encoded 27-character string of `b1` is byte-wise lexicographically smaller
than that of `b2`. -/
theorem C2_order_preservation (b1 b2 s1 s2 : List Nat)
    (hl1 : b1.length = 20) (hl2 : b2.length = 20)
    (hb1 : ∀ x ∈ b1, x < 256) (hb2 : ∀ x ∈ b2, x < 256)
    (he1 : encode b1 = some s1) (he2 : encode b2 = some s2) :
    val 256 b1 < val 256 b2 ↔ lexLt s1 s2 = true := by
  have h1 := encode_eq b1 hl1 hb1
  have h2 := encode_eq b2 hl2 hb2
  rw [he1] at h1
  rw [he2] at h2
  have hs1 : s1 = (padDigits 62 (val 256 b1) 27).map b62char := Option.some.inj h1
  have hs2 : s2 = (padDigits 62 (val 256 b2) 27).map b62char := Option.some.inj h2
  rw [hs1, hs2]
  have hd1 : ∀ d ∈ padDigits 62 (val 256 b1) 27, d < 62 :=
    padDigits_lt 62 (by norm_num) 27 _
  have hd2 : ∀ d ∈ padDigits 62 (val 256 b2) 27, d < 62 :=
    padDigits_lt 62 (by norm_num) 27 _
  have h160a : val 256 b1 < 62 ^ 27 := by
    have hv := val_lt 256 b1 hb1
    rw [hl1] at hv
    calc val 256 b1 < 256 ^ 20 := hv
      _ < 62 ^ 27 := by norm_num
  have h160b : val 256 b2 < 62 ^ 27 := by
    have hv := val_lt 256 b2 hb2
    rw [hl2] at hv
    calc val 256 b2 < 256 ^ 20 := hv
      _ < 62 ^ 27 := by norm_num
  rw [lexLt_map_b62char _ _ hd1 hd2,
    lexLt_iff_val 62 _ _ (by simp [padDigits_length]) hd1 hd2,
    val_padDigits 62 (by norm_num), val_padDigits 62 (by norm_num),
    Nat.mod_eq_of_lt h160a, Nat.mod_eq_of_lt h160b]

theorem C2_order_preservation_witness :
    val 256 (List.replicate 20 0) < val 256 (List.replicate 19 0 ++ [1])
      ↔ lexLt (List.replicate 27 48) (List.replicate 26 48 ++ [49]) = true :=
  C2_order_preservation (List.replicate 20 0) (List.replicate 19 0 ++ [1])
    (List.replicate 27 48) (List.replicate 26 48 ++ [49])
    (by decide) (by decide) (by decide) (by decide) (by decide) (by decide)

/-- C3: `encode` is total on 20-byte inputs: it always succeeds and returns
exactly 27 characters, each drawn from the base-62 alphabet. -/
theorem C3_encode_total (b : List Nat) (hlen : b.length = 20)
    (hb : ∀ x ∈ b, x < 256) :
    ∃ s, encode b = some s ∧ s.length = 27 ∧ ∀ c ∈ s, c ∈ BASE62_CHARS := by
  refine ⟨_, encode_eq b hlen hb, ?_, ?_⟩
  · simp [padDigits_length]
  · intro c hc
    rcases List.mem_map.mp hc with ⟨d, hd, rfl⟩
    exact b62char_mem ⟨d, padDigits_lt 62 (by norm_num) 27 _ d hd⟩

theorem C3_encode_total_witness :
    ∃ s, encode (List.replicate 20 255) = some s ∧ s.length = 27 ∧
      ∀ c ∈ s, c ∈ BASE62_CHARS :=
  C3_encode_total (List.replicate 20 255) (by decide) (by decide)

/-- C4: the code rejects every input shorter than 27 characters, but with
the error kind `InvalidBase62Character` rather than the length error kind
`InvalidBase62Length` that the claim (and the error type's own description)
prescribes. -/
theorem C4_short_input_error (s : List Nat) (h : s.length < 27) :
    decode s = .error (.invalidBase62Character s) := by
  simp [decode, h]

theorem C4_short_input_error_witness :
    (List.replicate 26 48).length < 27 ∧
      decode (List.replicate 26 48)
        = .error (.invalidBase62Character (List.replicate 26 48)) :=
  ⟨by decide, C4_short_input_error _ (by decide)⟩

theorem alphabet_value_index : ∀ i : Fin 62,
    base62_value (BASE62_CHARS.getD i.val 0)
      = List.indexOf (BASE62_CHARS.getD i.val 0) BASE62_CHARS := by decide

theorem mem_alphabet_value (c : Nat) (hc : c ∈ BASE62_CHARS) :
    base62_value c = List.indexOf c BASE62_CHARS := by
  rcases List.mem_iff_getElem.mp hc with ⟨i, hi, rfl⟩
  have hlen62 : BASE62_CHARS.length = 62 := by decide
  have h62 : i < 62 := hlen62 ▸ hi
  have hgd : BASE62_CHARS.getD i 0 = BASE62_CHARS[i] := by
    rw [List.getD_eq_getElem?_getD, List.getElem?_eq_getElem hi, Option.getD_some]
  have h : base62_value (BASE62_CHARS.getD i 0)
      = List.indexOf (BASE62_CHARS.getD i 0) BASE62_CHARS := alphabet_value_index ⟨i, h62⟩
  rw [hgd] at h
  exact h

/-- C5: decoding a 27-character string drawn from the alphabet yields the
20-byte big-endian representation of its base-62 value when that value is
below `2^160`, and fails with `InvalidBase62Length` otherwise. -/
theorem C5_decode_alphabet (s : List Nat) (hlen : s.length = 27)
    (hc : ∀ c ∈ s, c ∈ BASE62_CHARS) :
    (val 62 (s.map fun c => List.indexOf c BASE62_CHARS) < 2 ^ 160 →
      decode s
        = .ok (padDigits 256 (val 62 (s.map fun c => List.indexOf c BASE62_CHARS)) 20)) ∧
    (2 ^ 160 ≤ val 62 (s.map fun c => List.indexOf c BASE62_CHARS) →
      decode s = .error (.invalidBase62Length s)) := by
  have htake : s.take 27 = s := List.take_of_length_le (le_of_eq hlen)
  have hmap : (s.take 27).map base62_value
      = s.map fun c => List.indexOf c BASE62_CHARS := by
    rw [htake]
    exact List.map_congr_left fun c hcs => mem_alphabet_value c (hc c hcs)
  have hd := decode_eq s (le_of_eq hlen.symm)
  rw [hmap] at hd
  constructor
  · intro hlt
    rw [hd, if_pos hlt]
  · intro hge
    rw [hd, if_neg (not_lt.mpr hge)]

theorem C5_decode_alphabet_witness :
    (val 62 ((List.replicate 27 48).map fun c => List.indexOf c BASE62_CHARS) < 2 ^ 160 →
      decode (List.replicate 27 48)
        = .ok (padDigits 256
            (val 62 ((List.replicate 27 48).map fun c => List.indexOf c BASE62_CHARS)) 20)) ∧
    (2 ^ 160 ≤ val 62 ((List.replicate 27 48).map fun c => List.indexOf c BASE62_CHARS) →
      decode (List.replicate 27 48)
        = .error (.invalidBase62Length (List.replicate 27 48))) :=
  C5_decode_alphabet (List.replicate 27 48) (by decide) (by decide)

/-- C6 (amended): for input longer than 27 characters whose first 27
characters are alphabet characters, `decode` never rejects the input for
being too long: when the value of the first 27 digits fits in 160 bits the
result equals `decode` of the first 27 characters exactly; when it does not,
both runs fail with `InvalidBase62Length`, but each error records its own
input string (`s` versus `s.take 27`), so the two results are not equal as
values in that case. -/
theorem C6_truncation (s : List Nat) (hlen : 27 < s.length)
    (hc : ∀ c ∈ s.take 27, c ∈ BASE62_CHARS) :
    (val 62 ((s.take 27).map base62_value) < 2 ^ 160 →
      decode s = decode (s.take 27)) ∧
    (2 ^ 160 ≤ val 62 ((s.take 27).map base62_value) →
      decode s = .error (.invalidBase62Length s) ∧
      decode (s.take 27) = .error (.invalidBase62Length (s.take 27))) := by
  have hlen27 : (s.take 27).length = 27 := by
    simp only [List.length_take]
    omega
  have htt : (s.take 27).take 27 = s.take 27 := List.take_of_length_le (le_of_eq hlen27)
  have hd1 := decode_eq s (le_of_lt hlen)
  have hd2 := decode_eq (s.take 27) (le_of_eq hlen27.symm)
  rw [htt] at hd2
  constructor
  · intro hlt
    rw [hd1, hd2, if_pos hlt, if_pos hlt]
  · intro hge
    rw [hd1, hd2, if_neg (not_lt.mpr hge), if_neg (not_lt.mpr hge)]
    exact ⟨rfl, rfl⟩

theorem C6_truncation_counterexample :
    ¬ (decode (List.replicate 28 122) = decode ((List.replicate 28 122).take 27)) := by
  decide

theorem C6_truncation_witness :
    (val 62 (((List.replicate 28 48).take 27).map base62_value) < 2 ^ 160 →
      decode (List.replicate 28 48) = decode ((List.replicate 28 48).take 27)) ∧
    (2 ^ 160 ≤ val 62 (((List.replicate 28 48).take 27).map base62_value) →
      decode (List.replicate 28 48)
        = .error (.invalidBase62Length (List.replicate 28 48)) ∧
      decode ((List.replicate 28 48).take 27)
        = .error (.invalidBase62Length ((List.replicate 28 48).take 27))) :=
  C6_truncation (List.replicate 28 48) (by decide) (by decide)

/-- C7: the character-to-value mapping `base62_value` is total over all 256
byte values — it never raises an error and always produces a byte — and for
out-of-alphabet bytes it silently produces an incorrect value: the byte 96
(a backtick, not in the alphabet) maps to the same value as the alphabet
character 90 (uppercase Z). -/
theorem C7_base62_value_total :
    (∀ d : Fin 256, base62_value d.val < 256)
      ∧ base62_value 96 = base62_value 90 ∧ (96 : Nat) ∉ BASE62_CHARS :=
  ⟨fun d => base62_value_lt d.val, by decide, by decide⟩

theorem C7_base62_value_total_witness : base62_value 32 < 256 :=
  C7_base62_value_total.1 ⟨32, by decide⟩

/-- C8: for timestamps whose whole-second count lies in
`[1400000000, 1400000000 + 2^32)` and payloads of at least 16 bytes,
`from_parts` succeeds and `timestamp` on the result returns the timestamp
truncated to whole seconds. -/
theorem C8_from_parts_timestamp (t : DateTimeUtc) (payload : List Nat)
    (hlo : EPOCH_START ≤ t.secs) (hhi : t.secs < EPOCH_START + 2 ^ 32)
    (hp : 16 ≤ payload.length) :
    ∃ k, from_parts t payload = .ok k ∧ timestamp k = ⟨t.secs, 0⟩ := by
  have hnp : ¬ payload.length < PAYLOAD_LENGTH := by
    simp only [PAYLOAD_LENGTH]
    omega
  have h32i : ((2 : Int) ^ 32) = 4294967296 := by norm_num
  rw [h32i] at hhi
  have hdiff0 : (0 : Int) ≤ t.secs - EPOCH_START := by omega
  have hdiff1 : t.secs - EPOCH_START < 4294967296 := by omega
  have hu : to_ksuid_time t = (t.secs - EPOCH_START).toNat := by
    simp only [to_ksuid_time]
    rw [h32i, Int.emod_eq_of_lt hdiff0 hdiff1]
  have hu32 : to_ksuid_time t < 4294967296 := by
    rw [hu]
    omega
  refine ⟨⟨[(to_ksuid_time t >>> 24) % 256, (to_ksuid_time t >>> 16) % 256,
      (to_ksuid_time t >>> 8) % 256, to_ksuid_time t % 256]
      ++ payload.take PAYLOAD_LENGTH⟩, ?_, ?_⟩
  · simp only [from_parts, if_neg hnp]
  · simp only [timestamp, from_ksuid_time, read_u32, List.cons_append, List.nil_append,
      List.getD_cons_zero, List.getD_cons_succ]
    have hread : (to_ksuid_time t >>> 24) % 256 * 2 ^ 24
        + (to_ksuid_time t >>> 16) % 256 * 2 ^ 16
        + (to_ksuid_time t >>> 8) % 256 * 2 ^ 8 + to_ksuid_time t % 256
        = to_ksuid_time t := by
      simp only [Nat.shiftRight_eq_div_pow]
      norm_num
      omega
    rw [hread, hu]
    have hback : (((t.secs - EPOCH_START).toNat : Int) + EPOCH_START) = t.secs := by omega
    rw [hback]

theorem C8_from_parts_timestamp_witness :
    ∃ k, from_parts ⟨1400000000, 0⟩ (List.replicate 16 0) = .ok k ∧
      timestamp k = ⟨1400000000, 0⟩ :=
  C8_from_parts_timestamp ⟨1400000000, 0⟩ (List.replicate 16 0)
    (by decide) (by decide) (by decide)

/-- C9: `from_bytes` fails with `SliceTooSmall` exactly on inputs shorter
than 20 bytes; on any other input it succeeds and the identifier holds the
first 20 bytes of the input verbatim (longer inputs are truncated, not
rejected). -/
theorem C9_from_bytes (bs : List Nat) :
    (bs.length < 20 → from_bytes bs = .error (.sliceTooSmall bs.length)) ∧
    (20 ≤ bs.length →
      ∃ k, from_bytes bs = .ok k ∧ k.bytes = bs.take 20 ∧ k.bytes.length = 20) := by
  have hBL : BYTE_LENGTH = 20 := rfl
  constructor
  · intro h
    simp [from_bytes, hBL, h]
  · intro h
    refine ⟨⟨bs.take 20⟩, ?_, rfl, ?_⟩
    · simp only [from_bytes, hBL]
      rw [if_neg (not_lt.mpr h)]
    · simp only [List.length_take]
      omega

theorem C9_from_bytes_witness :
    ((List.replicate 21 7).length < 20 →
      from_bytes (List.replicate 21 7)
        = .error (.sliceTooSmall (List.replicate 21 7).length)) ∧
    (20 ≤ (List.replicate 21 7).length →
      ∃ k, from_bytes (List.replicate 21 7) = .ok k ∧
        k.bytes = (List.replicate 21 7).take 20 ∧ k.bytes.length = 20) :=
  C9_from_bytes (List.replicate 21 7)

/-- C10: encoding the all-0xFF 20-byte array yields exactly the canonical
maximum string constant of the source. -/
theorem C10_encode_max : encode (List.replicate 20 255) = some MAX_STRING_ENCODED := by
  decide

end KsuidRs
